import Mathlib

/-!
Shallow embedding of the calculator in src/expression.rs (the Expression
tree, its evaluator, locate_parenthesis, find_minimum_priority_token and
the FromStr parser), together with theorems checking the specification's
claims against it.

Modelling conventions:
* Strings are lists of characters; byte offsets are computed from
  Char.utf8Size, matching str::char_indices.
* usize::MAX is the natural number 2 ^ 64 - 1; the scanner's sentinel
  value is only compared and looked up, never wrapped, so Nat is faithful.
* f64 values are modelled as exact rationals.  Every numeric value the
  claims exercise is a small integer or a dyadic decimal, on which f64
  arithmetic is exact.  powf is modelled exactly for integral exponents,
  the only exponents any claim reaches; non-integral exponents (NaN-land
  in the source) are mapped to 0, and division by zero (IEEE infinity)
  maps to Rat's 0 -- no claim touches either case.
* Rust panics (out-of-range string slices in from_str) are the
  distinguished outcome PResult.panic; the eyre error reports are
  collapsed to the error taxonomy the spec names in section 7.
* The numeric-literal parser models the documented grammar of Rust's
  f64::from_str (sign, mantissa digits with an optional point, optional
  exponent with an optional sign), with the exact decimal value as a
  rational; the non-finite forms inf/infinity/nan are outside the
  rational-valued model and no claim mentions them.
-/

def USIZE_MAX : Nat := 2 ^ 64 - 1

def utf8Len (s : List Char) : Nat := (s.map Char.utf8Size).sum

/-- Byte-offset and character pairs, as str::char_indices, starting at
offset k. -/
def charIndicesFrom : Nat → List Char → List (Nat × Char)
  | _, [] => []
  | k, c :: cs => (k, c) :: charIndicesFrom (k + c.utf8Size) cs

def charIndices (s : List Char) : List (Nat × Char) := charIndicesFrom 0 s

/-- Split a string at byte offset n; none when n is past the end or not
on a character boundary (the cases where a Rust slice panics). -/
def byteSplitAux : Nat → List Char → Option (List Char × List Char)
  | 0, s => some ([], s)
  | _ + 1, [] => none
  | n + 1, c :: cs =>
    if c.utf8Size ≤ n + 1 then
      (byteSplitAux (n + 1 - c.utf8Size) cs).map fun p => (c :: p.1, p.2)
    else none

/-- The slice s[..n], none when Rust would panic. -/
def sliceTo (n : Nat) (s : List Char) : Option (List Char) :=
  (byteSplitAux n s).map Prod.fst

/-- The slice s[n..], none when Rust would panic. -/
def sliceFrom (n : Nat) (s : List Char) : Option (List Char) :=
  (byteSplitAux n s).map Prod.snd

/-- The slice s[a..b], none when Rust would panic (this includes a > b). -/
def sliceBytes (a b : Nat) (s : List Char) : Option (List Char) :=
  match byteSplitAux b s with
  | none => none
  | some (pre, _) => (byteSplitAux a pre).map Prod.snd

/-- The character set of the trim on entry to from_str:
s.trim_matches(&[' ', '\n', '\r', '\t']). -/
def isTrimChar (c : Char) : Bool :=
  c == ' ' || c == '\n' || c == '\r' || c == '\t'

def trimMatches (s : List Char) : List Char :=
  ((s.dropWhile isTrimChar).reverse.dropWhile isTrimChar).reverse

/-- Rust's u8::is_ascii_whitespace: space, tab, newline, form feed,
carriage return. -/
def isAsciiWhitespace (c : Char) : Bool :=
  c == ' ' || c == '\t' || c == '\n' || c == Char.ofNat 12 || c == '\r'

/-- The operator characters of matches!(x, '+' | '-' | '*' | '/' | '^'). -/
def isOperatorChar (c : Char) : Bool :=
  c == '+' || c == '-' || c == '*' || c == '/' || c == '^'

inductive BinaryOperator
  | addition
  | subtraction
  | multiplication
  | division
  | exponentiation
  deriving DecidableEq

inductive Expression
  | binaryOperation : BinaryOperator → Expression → Expression → Expression
  | unaryNegation : Expression → Expression
  | parenthesis : Expression → Expression
  | number : ℚ → Expression
  deriving DecidableEq

/-- The error taxonomy of section 7, standing for the eyre reports the
source produces. -/
inductive ParseError
  | indexOutOfRange
  | invalidOperator
  | numberFormat
  deriving DecidableEq

/-- Outcome of a parse: a value, a propagated error report, or a Rust
panic (reachable through the out-of-range slices in from_str). -/
inductive PResult (α : Type)
  | ok : α → PResult α
  | err : ParseError → PResult α
  | panic : PResult α
  deriving DecidableEq

/-- TryFrom of char for BinaryOperator. -/
def charToBinaryOperator (c : Char) : Option BinaryOperator :=
  if c == '+' then some .addition
  else if c == '-' then some .subtraction
  else if c == '*' then some .multiplication
  else if c == '/' then some .division
  else if c == '^' then some .exponentiation
  else none

/-- x raised to an integer power, the reachable fragment of f64::powf. -/
def intPow (x : ℚ) : Int → ℚ
  | .ofNat n => x ^ n
  | .negSucc n => (x ^ (n + 1))⁻¹

/-- Model of f64::powf at the rational values of this development: exact
for integral exponents (the only exponents any claim produces); a
non-integral exponent, NaN territory in IEEE semantics, is sent to 0. -/
def ratPow (x y : ℚ) : ℚ := if y.den = 1 then intPow x y.num else 0

/-- Expression::evaluate. -/
def evaluate : Expression → ℚ
  | .binaryOperation op l r =>
    match op with
    | .addition => evaluate l + evaluate r
    | .subtraction => evaluate l - evaluate r
    | .multiplication => evaluate l * evaluate r
    | .division => evaluate l / evaluate r
    | .exponentiation => ratPow (evaluate l) (evaluate r)
  | .unaryNegation e => -(evaluate e)
  | .parenthesis e => evaluate e
  | .number x => x

/-- Rust's is_ascii_digit, the digits of the float grammar. -/
def isDigitChar (c : Char) : Bool := '0' ≤ c && c ≤ '9'

def digitsToNat (l : List Char) : Nat :=
  l.foldl (fun acc c => 10 * acc + (c.toNat - 48)) 0

/-- Split a candidate literal at its first exponent marker e or E. -/
def splitAtExp : List Char → List Char × Option (List Char)
  | [] => ([], none)
  | c :: cs =>
    if c == 'e' || c == 'E' then ([], some cs)
    else
      let r := splitAtExp cs
      (c :: r.1, r.2)

/-- Mantissa of the f64 grammar: digits, or digits around a single
point, with at least one digit present; exact value as a rational. -/
def parseMantissa (m : List Char) : Option ℚ :=
  if (m.dropWhile isDigitChar).isEmpty then
    if (m.takeWhile isDigitChar).isEmpty then none
    else some (digitsToNat (m.takeWhile isDigitChar) : ℚ)
  else if (m.dropWhile isDigitChar).head? = some '.' then
    if ((m.dropWhile isDigitChar).drop 1).all isDigitChar &&
        !((m.takeWhile isDigitChar).isEmpty && ((m.dropWhile isDigitChar).drop 1).isEmpty) then
      some ((digitsToNat (m.takeWhile isDigitChar) : ℚ) +
        (digitsToNat ((m.dropWhile isDigitChar).drop 1) : ℚ) /
          (10 : ℚ) ^ ((m.dropWhile isDigitChar).drop 1).length)
    else none
  else none

/-- Exponent of the f64 grammar: an optional sign then one or more
digits. -/
def parseExpPart (es : List Char) : Option Int :=
  if es.head? = some '+' then
    if !(es.drop 1).isEmpty && (es.drop 1).all isDigitChar then
      some (digitsToNat (es.drop 1) : Int)
    else none
  else if es.head? = some '-' then
    if !(es.drop 1).isEmpty && (es.drop 1).all isDigitChar then
      some (-(digitsToNat (es.drop 1) : Int))
    else none
  else
    if !es.isEmpty && es.all isDigitChar then some (digitsToNat es : Int) else none

def parseF64Unsigned (s : List Char) : Option ℚ :=
  let me := splitAtExp s
  match parseMantissa me.1 with
  | none => none
  | some q =>
    match me.2 with
    | none => some q
    | some es => (parseExpPart es).map fun k => q * intPow 10 k

/-- Model of str::parse::<f64> on the finite-literal grammar: one
optional leading sign, then mantissa and optional exponent. -/
def parseF64 (s : List Char) : Option ℚ :=
  if s.head? = some '+' then parseF64Unsigned (s.drop 1)
  else if s.head? = some '-' then (parseF64Unsigned (s.drop 1)).map fun q => -q
  else parseF64Unsigned s

/-- Loop body of locate_parenthesis: depth counting over the filtered
parenthesis characters (characters other than the two parentheses are
skipped, as the source's filter does). -/
def locateParenthesisAux : Int → Nat → List (Nat × Char) → List (Nat × Nat)
  | _, _, [] => []
  | depth, current, (i, c) :: rest =>
    if c == '(' then
      locateParenthesisAux (depth + 1) (if depth = 0 then i else current) rest
    else if c == ')' then
      (if depth = 1 then [(current, i)] else []) ++
        locateParenthesisAux (depth - 1) current rest
    else
      locateParenthesisAux depth current rest

def locate_parenthesis (s : List Char) : List (Nat × Nat) :=
  locateParenthesisAux 0 USIZE_MAX (charIndices s)

/-- The same depth-counting loop started at an arbitrary depth, used to
describe what a scan looks like after a stray closing parenthesis. -/
def locateParenthesisFromDepth (d : Int) (s : List Char) : List (Nat × Nat) :=
  locateParenthesisAux d USIZE_MAX (charIndices s)

/-- Head span test of the scanner: current_index is the head of the
remaining span list, and the skip applies strictly inside it. -/
def insideSpan (spans : List (Nat × Nat)) (i : Nat) : Bool :=
  match spans with
  | (st, en) :: _ => st < i && i < en
  | [] => false

/-- Loop of find_minimum_priority_token.  seen is the reversed list of
characters already passed (the source's s[..i]); best is the running
(index, priority) pair.  The ordinary-token arm stores the literal 6
exactly as the source's line 160 does. -/
def findMinAux : List (Nat × Nat) → Nat × Nat → List Char → List (Nat × Char) → Nat × Nat
  | _, best, _, [] => best
  | spans, best, seen, (i, token) :: rest =>
    if insideSpan spans i then
      findMinAux spans best (token :: seen) rest
    else
      let isNegation : Bool :=
        token == '-' &&
          (i == 0 ||
            (match seen.find? (fun c => !(isAsciiWhitespace c)) with
             | some x => isOperatorChar x
             | none => false))
      if token == ' ' || token == '\n' || token == '\r' then
        findMinAux spans best (token :: seen) rest
      else
        let priority : Nat :=
          if token == '(' then 5
          else if token == '-' && isNegation then 4
          else if token == '^' then 3
          else if token == '*' || token == '/' then 2
          else if token == '+' || token == '-' then 1
          else 255
        if token == ')' then
          findMinAux (spans.drop 1) best (token :: seen) rest
        else if token == '-' && isNegation then
          findMinAux spans (if priority < best.2 then (i, priority) else best) (token :: seen) rest
        else
          findMinAux spans (if priority ≤ best.2 then (i, 6) else best) (token :: seen) rest

def find_minimum_priority_token (s : List Char) (parenthesis_indices : List (Nat × Nat)) : Nat :=
  (findMinAux parenthesis_indices (USIZE_MAX, 255) [] (charIndices s)).1

/-- Propagation of the question-mark operator around a recursive parse,
wrapping a successful subtree with f. -/
def mapParse (f : Expression → Expression) : PResult Expression → PResult Expression
  | .ok e => .ok (f e)
  | .err er => .err er
  | .panic => .panic

/-- Propagation of the question-mark operator on the left operand,
continuing with k on success. -/
def contParse (k : Expression → PResult Expression) : PResult Expression → PResult Expression
  | .ok left => k left
  | .err er => .err er
  | .panic => .panic

/-- Right half of the binary arm of from_str: slice after the operator,
parse the suffix, and assemble the node. -/
def binaryRight (recur : List Char → PResult Expression) (t : List Char)
    (min_priority_index : Nat) (op : BinaryOperator) (left : Expression) : PResult Expression :=
  match sliceFrom (min_priority_index + 1) t with
  | none => .panic
  | some rightStr => mapParse (fun right => .binaryOperation op left right) (recur rightStr)

/-- Dispatch step of from_str on the character found at the winning
index: the four arms of the source's match, with the recursive
occurrences abstracted as recur. -/
def fromStrDispatch (recur : List Char → PResult Expression) (t : List Char)
    (min_priority_index : Nat) (token : Char) : PResult Expression :=
  if token == '-' && min_priority_index == 0 then
    match sliceFrom (min_priority_index + 1) t with
    | none => .panic
    | some rest => mapParse Expression.unaryNegation (recur rest)
  else if isOperatorChar token then
    match charToBinaryOperator token with
    | none => .err .invalidOperator
    | some op =>
      match sliceTo min_priority_index t with
      | none => .panic
      | some leftStr =>
        contParse (binaryRight recur t min_priority_index op) (recur leftStr)
  else if token == '(' then
    match sliceBytes 1 (utf8Len t - 1) t with
    | none => .panic
    | some mid => mapParse Expression.parenthesis (recur mid)
  else
    match parseF64 t with
    | some q => .ok (.number q)
    | none => .err .numberFormat

/-- One unfolding of from_str, with the recursive occurrences abstracted
as recur: trim, locate the spans, find the minimum-priority token, and
dispatch on the character at that index. -/
def fromStrBody (recur : List Char → PResult Expression) (s : List Char) : PResult Expression :=
  let t := trimMatches s
  let parenthesis_indices := locate_parenthesis t
  let min_priority_index := find_minimum_priority_token t parenthesis_indices
  match t.get? min_priority_index with
  | none => .err .indexOutOfRange
  | some token => fromStrDispatch recur t min_priority_index token

/-- Fuelled unfolding of from_str.  Every recursive call of the source
strictly shrinks the string, so character count plus one is always
enough fuel (fromStrFuel_eq_from_str below); the fuel-exhausted branch
is unreachable from from_str. -/
def fromStrFuel : Nat → List Char → PResult Expression
  | 0, _ => .panic
  | fuel + 1, s => fromStrBody (fromStrFuel fuel) s

/-- Expression::from_str. -/
def from_str (s : List Char) : PResult Expression :=
  fromStrFuel (s.length + 1) s

/-- The pure entry point the spec names in section 6: parse, then
evaluate. -/
def parse_and_evaluate (s : List Char) : PResult ℚ :=
  match from_str s with
  | .ok e => .ok (evaluate e)
  | .err er => .err er
  | .panic => .panic

/-- Scanner loop as section 4.2 words it, for comparison with the
source's findMinAux: identical scan, except that the ordinary-token arm
records the token's actual priority as the new best priority (the update
condition, less than or equal, is the same). -/
def specFindMinAux : List (Nat × Nat) → Nat × Nat → List Char → List (Nat × Char) → Nat × Nat
  | _, best, _, [] => best
  | spans, best, seen, (i, token) :: rest =>
    if insideSpan spans i then
      specFindMinAux spans best (token :: seen) rest
    else
      let isNegation : Bool :=
        token == '-' &&
          (i == 0 ||
            (match seen.find? (fun c => !(isAsciiWhitespace c)) with
             | some x => isOperatorChar x
             | none => false))
      if token == ' ' || token == '\n' || token == '\r' then
        specFindMinAux spans best (token :: seen) rest
      else
        let priority : Nat :=
          if token == '(' then 5
          else if token == '-' && isNegation then 4
          else if token == '^' then 3
          else if token == '*' || token == '/' then 2
          else if token == '+' || token == '-' then 1
          else 255
        if token == ')' then
          specFindMinAux (spans.drop 1) best (token :: seen) rest
        else if token == '-' && isNegation then
          specFindMinAux spans (if priority < best.2 then (i, priority) else best) (token :: seen) rest
        else
          specFindMinAux spans (if priority ≤ best.2 then (i, priority) else best) (token :: seen) rest

/-- The minimum-priority scan as described by section 4.2 of the spec. -/
def specMinimumPriorityToken (s : List Char) (parenthesis_indices : List (Nat × Nat)) : Nat :=
  (specFindMinAux parenthesis_indices (USIZE_MAX, 255) [] (charIndices s)).1

/-- Variant of the parse described by the claim that trimming happens on
the very first call only: the recursive calls run this body, which does
not trim at entry, on the raw split substrings. -/
def fromStrRawBody (recur : List Char → PResult Expression) (t : List Char) : PResult Expression :=
  let parenthesis_indices := locate_parenthesis t
  let min_priority_index := find_minimum_priority_token t parenthesis_indices
  match t.get? min_priority_index with
  | none => .err .indexOutOfRange
  | some token => fromStrDispatch recur t min_priority_index token

def fromStrRawFuel : Nat → List Char → PResult Expression
  | 0, _ => .panic
  | fuel + 1, s => fromStrRawBody (fromStrRawFuel fuel) s

/-- The parse the claim about trimming describes: leading and trailing
whitespace removed on the very first call only, recursive calls on raw
split substrings with no re-trim before dispatch. -/
def fromStrNoRetrim (s : List Char) : PResult Expression :=
  fromStrRawFuel (s.length + 1) (trimMatches s)

/-- C1: on "2+3*4" (no parenthesis spans) the source scanner returns
index 3, the '*' of priority 2, although the '+' of priority 1 sits at
index 1: the ordinary-token arm of the loop overwrites the recorded best
priority with the literal 6 instead of the token's priority, so the scan
of section 4.2 -- which returns 1 here -- is not implemented. -/
theorem c1_scanner_not_lowest_priority :
    find_minimum_priority_token [ '2', '+', '3', '*', '4' ] [] = 3 ∧
      specMinimumPriorityToken [ '2', '+', '3', '*', '4' ] [] = 1 := by
  decide

/-- C2: precedence is broken by the scanner's stored-6 slip: "2+3*4"
evaluates to 20 (the claim says 14) and "2*3^2" to 36 (the claim says
18); "2*3+4" does give 10, the rightmost operator happening to be the
lowest one there. -/
theorem c2_precedence_results :
    parse_and_evaluate [ '2', '+', '3', '*', '4' ] = .ok 20 ∧
      parse_and_evaluate [ '2', '*', '3', '+', '4' ] = .ok 10 ∧
      parse_and_evaluate [ '2', '*', '3', '^', '2' ] = .ok 36 := by
  have h1 : from_str [ '2', '+', '3', '*', '4' ] =
      .ok (.binaryOperation .multiplication
        (.binaryOperation .addition (.number 2) (.number 3)) (.number 4)) := by
    decide
  have h2 : from_str [ '2', '*', '3', '+', '4' ] =
      .ok (.binaryOperation .addition
        (.binaryOperation .multiplication (.number 2) (.number 3)) (.number 4)) := by
    decide
  have h3 : from_str [ '2', '*', '3', '^', '2' ] =
      .ok (.binaryOperation .exponentiation
        (.binaryOperation .multiplication (.number 2) (.number 3)) (.number 2)) := by
    decide
  refine ⟨?_, ?_, ?_⟩ <;>
    simp [parse_and_evaluate, h1, h2, h3, evaluate, ratPow, intPow] <;> norm_num

/-- C3 counterexample: "-5^2" evaluates to 25, not the claimed -25. -/
theorem c3_neg_exp_counterexample :
    parse_and_evaluate [ '-', '5', '^', '2' ] = .ok 25 ∧
      (PResult.ok (25 : ℚ) ≠ PResult.ok (-25 : ℚ)) := by
  decide

/-- C3 amended: "--5" evaluates to 5, and "-5^2" evaluates to 25,
parsed as (-5)^2 -- the '^' (priority 3) is the split point over the
negation marker (priority 4), so negation binds tighter than '^'. -/
theorem c3_amended_unary_chains :
    parse_and_evaluate [ '-', '-', '5' ] = .ok 5 ∧
      from_str [ '-', '5', '^', '2' ] =
        .ok (.binaryOperation .exponentiation (.unaryNegation (.number 5)) (.number 2)) ∧
      parse_and_evaluate [ '-', '5', '^', '2' ] = .ok 25 := by
  decide

/-- C4 counterexample: on the claim's own example "(" the parenthesis
dispatch branch slices s[1..0], which is out of range, so from_str
panics rather than returning a ParseError. -/
theorem c4_paren_slice_counterexample :
    from_str [ '(' ] = .panic := by
  decide

/-- C4 amended: parsing is not total; the parenthesis branch's
unconditional removal of the first and last characters performs an
out-of-range slice, and from_str panics, on both "(" and "1+(2)" (on
the latter the scanner picks the '(' over the earlier '+', so the
branch runs on a string that is not one parenthesized group). -/
theorem c4_amended_paren_panics :
    from_str [ '1', '+', '(', '2', ')' ] = .panic ∧
      from_str [ '(' ] = .panic := by
  decide

/-- C5 counterexample: the host parser accepts "1e+3" with value 1000,
but the pipeline splits at the exponent's '+' and fails with a number
format error. -/
theorem c5_signed_exponent_counterexample :
    parseF64 [ '1', 'e', '+', '3' ] = some 1000 ∧
      parse_and_evaluate [ '1', 'e', '+', '3' ] = .err .numberFormat := by
  constructor
  · simp [parseF64, parseF64Unsigned, splitAtExp, parseMantissa, parseExpPart,
      digitsToNat, isDigitChar, intPow]
    norm_num
  · decide

/-- C6 counterexample: on the empty string the scanner finds no token
and returns usize::MAX, so from_str returns the Index-out-of-range
error -- the very input the claim says cannot produce it. -/
theorem c6_empty_counterexample :
    from_str [] = .err .indexOutOfRange := by
  decide

/-- C7 counterexample: the code parses "1 + 2" to 1 + 2 because each
recursive call re-trims its substring; the behaviour the claim
describes (raw substrings, no re-trim before dispatch) would fail with
a number format error on the untrimmed leaf "1 ". -/
theorem c7_retrim_counterexample :
    from_str [ '1', ' ', '+', ' ', '2' ] =
        .ok (.binaryOperation .addition (.number 1) (.number 2)) ∧
      fromStrNoRetrim [ '1', ' ', '+', ' ', '2' ] = .err .numberFormat := by
  decide

/-- C8: "1-2-3" parses as (1-2)-3 and evaluates to -4. -/
theorem c8_subtraction_left_assoc :
    from_str [ '1', '-', '2', '-', '3' ] =
        .ok (.binaryOperation .subtraction
          (.binaryOperation .subtraction (.number 1) (.number 2)) (.number 3)) ∧
      parse_and_evaluate [ '1', '-', '2', '-', '3' ] = .ok (-4) := by
  have h : from_str [ '1', '-', '2', '-', '3' ] =
      .ok (.binaryOperation .subtraction
        (.binaryOperation .subtraction (.number 1) (.number 2)) (.number 3)) := by
    decide
  refine ⟨h, ?_⟩
  simp [parse_and_evaluate, h, evaluate]
  norm_num

/-- C9 counterexample: ")(1)" yields no spans at all, while "(1)" yields
one; the shift by one byte of the latter is not the former, so the
spans following a stray ')' are not those of the stray-free string. -/
theorem c9_stray_paren_counterexample :
    locate_parenthesis [ ')', '(', '1', ')' ] = [] ∧
      locate_parenthesis [ '(', '1', ')' ] = [(0, 2)] ∧
      (locate_parenthesis [ '(', '1', ')' ]).map (fun p => (p.1 + 1, p.2 + 1)) ≠
        locate_parenthesis [ ')', '(', '1', ')' ] := by
  decide

/-- C10: the Parenthesis wrapper is transparent under evaluation. -/
theorem c10_parenthesis_transparent (e : Expression) :
    evaluate (.parenthesis e) = evaluate e := rfl

theorem utf8Len_append (a b : List Char) : utf8Len (a ++ b) = utf8Len a + utf8Len b := by
  simp [utf8Len]


theorem length_le_utf8Len (s : List Char) : s.length ≤ utf8Len s := by
  induction s with
  | nil => simp [utf8Len]
  | cons c cs ih =>
    have := Char.utf8Size_pos c
    simp only [utf8Len, List.map_cons, List.sum_cons, List.length_cons]
    simp only [utf8Len] at ih
    omega

theorem byteSplitAux_some {n : Nat} {s a b : List Char}
    (h : byteSplitAux n s = some (a, b)) : s = a ++ b ∧ utf8Len a = n := by
  induction s generalizing n a b with
  | nil =>
    cases n with
    | zero =>
      simp only [byteSplitAux, Option.some.injEq, Prod.mk.injEq] at h
      obtain ⟨rfl, rfl⟩ := h
      exact ⟨rfl, rfl⟩
    | succ m => simp [byteSplitAux] at h
  | cons c cs ih =>
    cases n with
    | zero =>
      simp only [byteSplitAux, Option.some.injEq, Prod.mk.injEq] at h
      obtain ⟨rfl, rfl⟩ := h
      exact ⟨rfl, rfl⟩
    | succ m =>
      simp only [byteSplitAux] at h
      split at h
      · rename_i hle
        cases hb : byteSplitAux (m + 1 - c.utf8Size) cs with
        | none => rw [hb] at h; simp at h
        | some p =>
          rw [hb] at h
          simp only [Option.map_some', Option.some.injEq, Prod.mk.injEq] at h
          obtain ⟨h1, h2⟩ := h
          obtain ⟨he, hl⟩ := ih (a := p.1) (b := p.2) (by rw [hb])
          subst h2
          cases a with
          | nil => simp at h1
          | cons a0 as =>
            simp only [List.cons.injEq] at h1
            obtain ⟨rfl, rfl⟩ := h1
            constructor
            · rw [he]; rfl
            · simp only [utf8Len, List.map_cons, List.sum_cons] at hl ⊢
              have : (p.1.map Char.utf8Size).sum = m + 1 - c.utf8Size := hl
              omega
      · exact absurd h (by simp)

theorem sliceTo_some {n : Nat} {s a : List Char} (h : sliceTo n s = some a) :
    ∃ b, s = a ++ b ∧ utf8Len a = n := by
  unfold sliceTo at h
  cases hb : byteSplitAux n s with
  | none => rw [hb] at h; simp at h
  | some p =>
    rw [hb] at h
    simp only [Option.map_some', Option.some.injEq] at h
    subst h
    obtain ⟨he, hl⟩ := byteSplitAux_some (a := p.1) (b := p.2) (by rw [hb])
    exact ⟨p.2, he, hl⟩

theorem sliceFrom_some {n : Nat} {s b : List Char} (h : sliceFrom n s = some b) :
    ∃ a, s = a ++ b ∧ utf8Len a = n := by
  unfold sliceFrom at h
  cases hb : byteSplitAux n s with
  | none => rw [hb] at h; simp at h
  | some p =>
    rw [hb] at h
    simp only [Option.map_some', Option.some.injEq] at h
    subst h
    obtain ⟨he, hl⟩ := byteSplitAux_some (a := p.1) (b := p.2) (by rw [hb])
    exact ⟨p.1, he, hl⟩

theorem sliceFrom_length {n : Nat} {s b : List Char} (hn : 0 < n)
    (h : sliceFrom n s = some b) : b.length < s.length := by
  obtain ⟨a, he, hl⟩ := sliceFrom_some h
  have ha : a ≠ [] := by
    intro hnil
    rw [hnil] at hl
    simp [utf8Len] at hl
    omega
  subst he
  have : 0 < a.length := List.length_pos.mpr ha
  simp only [List.length_append]
  omega

theorem sliceBytes_length {a b : Nat} {s mid : List Char} (ha : 0 < a)
    (h : sliceBytes a b s = some mid) : mid.length < s.length := by
  unfold sliceBytes at h
  cases h1 : byteSplitAux b s with
  | none => rw [h1] at h; simp at h
  | some p =>
    rw [h1] at h
    obtain ⟨he1, -⟩ := byteSplitAux_some (a := p.1) (b := p.2) (by rw [h1])
    have hmid : sliceFrom a p.1 = some mid := by
      unfold sliceFrom
      exact h
    have h2 := sliceFrom_length ha hmid
    subst he1
    simp only [List.length_append]
    omega

theorem trimMatches_nil_of_all {s : List Char} (h : s.all isTrimChar = true) :
    trimMatches s = [] := by
  unfold trimMatches
  have h1 : s.dropWhile isTrimChar = [] := by
    rw [List.dropWhile_eq_nil_iff]
    intro x hx
    exact List.all_eq_true.mp h x hx
  rw [h1]
  rfl

/-- C6 amended: the Index-out-of-range error is reachable, and is what
from_str returns whenever the trimmed input is empty -- in particular on
the empty string and on whitespace-only input: the scanner then returns
its usize::MAX sentinel and the character lookup at it fails. -/
theorem c6_amended_index_error_reachable (s : List Char) (h : s.all isTrimChar = true) :
    from_str s = .err .indexOutOfRange := by
  have ht := trimMatches_nil_of_all h
  show fromStrFuel (s.length + 1) s = _
  rw [show fromStrFuel (s.length + 1) s = fromStrBody (fromStrFuel s.length) s from rfl]
  unfold fromStrBody
  rw [ht]
  rfl

/-- Witness for C6 amended at the whitespace-only input of a space and a
newline. -/
theorem c6_amended_witness :
    ([ ' ', '\n' ].all isTrimChar = true) ∧
      from_str [ ' ', '\n' ] = .err .indexOutOfRange :=
  ⟨by decide, c6_amended_index_error_reachable [ ' ', '\n' ] (by decide)⟩

theorem charIndicesFrom_add (s : List Char) (k : Nat) :
    ∀ j, charIndicesFrom (k + j) s = (charIndicesFrom j s).map fun p => (p.1 + k, p.2) := by
  induction s with
  | nil => intro j; rfl
  | cons c cs ih =>
    intro j
    simp only [charIndicesFrom, List.map_cons]
    refine List.cons_eq_cons.mpr ⟨by rw [Nat.add_comm], ?_⟩
    rw [show k + j + c.utf8Size = k + (j + c.utf8Size) by omega]
    exact ih (j + c.utf8Size)

theorem locateParenthesisAux_cur (l : List (Nat × Char)) :
    ∀ (d : Int) (cur cur' : Nat), d ≤ 0 →
      locateParenthesisAux d cur l = locateParenthesisAux d cur' l := by
  induction l with
  | nil => intros; rfl
  | cons p rest ih =>
    intro d cur cur' hd
    obtain ⟨i, c⟩ := p
    by_cases h1 : c = '('
    · have e1 : ((c == '(') = true) := by simp [h1]
      simp only [locateParenthesisAux, if_pos e1]
      by_cases h2 : d = 0
      · simp only [if_pos h2]
      · simp only [if_neg h2]
        exact ih (d + 1) cur cur' (by omega)
    · have e1 : ¬ ((c == '(') = true) := by simp [h1]
      by_cases h2 : c = ')'
      · have e2 : ((c == ')') = true) := by simp [h2]
        simp only [locateParenthesisAux, if_neg e1, if_pos e2,
          if_neg (show ¬ d = 1 by omega), List.nil_append]
        exact ih (d - 1) cur cur' (by omega)
      · have e2 : ¬ ((c == ')') = true) := by simp [h2]
        simp only [locateParenthesisAux, if_neg e1, if_neg e2]
        exact ih d cur cur' hd

theorem locateParenthesisAux_shift (l : List (Nat × Char)) (k : Nat) :
    ∀ (d : Int) (cur : Nat),
      locateParenthesisAux d (cur + k) (l.map fun p => (p.1 + k, p.2)) =
        (locateParenthesisAux d cur l).map fun p => (p.1 + k, p.2 + k) := by
  induction l with
  | nil => intros; rfl
  | cons p rest ih =>
    intro d cur
    obtain ⟨i, c⟩ := p
    simp only [List.map_cons]
    by_cases h1 : c = '('
    · have e1 : ((c == '(') = true) := by simp [h1]
      simp only [locateParenthesisAux, if_pos e1]
      by_cases h2 : d = 0
      · simp only [if_pos h2]
        exact ih (d + 1) i
      · simp only [if_neg h2]
        exact ih (d + 1) cur
    · have e1 : ¬ ((c == '(') = true) := by simp [h1]
      by_cases h2 : c = ')'
      · have e2 : ((c == ')') = true) := by simp [h2]
        simp only [locateParenthesisAux, if_neg e1, if_pos e2, List.map_append]
        by_cases h3 : d = 1
        · simp only [if_pos h3, List.map_cons, List.map_nil]
          rw [ih (d - 1) cur]
        · simp only [if_neg h3, List.map_nil, List.nil_append]
          exact ih (d - 1) cur
      · have e2 : ¬ ((c == ')') = true) := by simp [h2]
        simp only [locateParenthesisAux, if_neg e1, if_neg e2]
        exact ih d cur

/-- C9 amended: a stray ')' at depth 0 is not without effect; it leaves
the depth at -1 for the whole remaining scan, so the spans emitted after
it are exactly those the depth-counting loop emits for the remainder
when started from depth -1 (the groups one nesting level deeper),
shifted by the stray character's byte.  ")(1)" yielding no spans while
"(1)" yields one is the instance the counterexample records. -/
theorem c9_amended_stray_paren (t : List Char) :
    locate_parenthesis (')' :: t) =
      (locateParenthesisFromDepth (-1) t).map fun p => (p.1 + 1, p.2 + 1) := by
  unfold locate_parenthesis locateParenthesisFromDepth charIndices
  have hidx : charIndicesFrom (0 + Char.utf8Size ')') t =
      (charIndicesFrom 0 t).map fun p => (p.1 + 1, p.2) := by
    rw [show (0 : Nat) + Char.utf8Size ')' = 1 + 0 from by decide]
    exact charIndicesFrom_add t 1 0
  simp only [charIndicesFrom]
  rw [hidx]
  simp only [locateParenthesisAux]
  rw [if_neg (show ¬ ((')' == '(') = true) by decide)]
  rw [if_pos (show ((')' == ')') = true) by decide)]
  rw [if_neg (show ¬ ((0 : Int) = 1) by decide)]
  simp only [List.nil_append]
  rw [show (0 : Int) - 1 = -1 from by norm_num]
  rw [locateParenthesisAux_cur _ (-1) USIZE_MAX (USIZE_MAX + 1) (by norm_num)]
  exact locateParenthesisAux_shift (charIndicesFrom 0 t) 1 (-1) USIZE_MAX

theorem sliceTo_length {n : Nat} {s a : List Char} (hn : n < s.length)
    (h : sliceTo n s = some a) : a.length < s.length := by
  obtain ⟨b, he, hl⟩ := sliceTo_some h
  have := length_le_utf8Len a
  omega

theorem dropWhile_cons_head_not {α : Type} {p : α → Bool} {s r : List α} {x : α}
    (h : s.dropWhile p = x :: r) : p x = false := by
  induction s with
  | nil => simp at h
  | cons c cs ih =>
    rw [List.dropWhile_cons] at h
    by_cases hc : p c = true
    · rw [if_pos hc] at h
      exact ih h
    · rw [if_neg hc] at h
      obtain ⟨rfl, -⟩ := List.cons.inj h
      simpa using hc

theorem trimMatches_eq_rdrop (s : List Char) :
    trimMatches s = List.rdropWhile isTrimChar (s.dropWhile isTrimChar) := rfl

theorem trimMatches_idem (s : List Char) : trimMatches (trimMatches s) = trimMatches s := by
  rw [trimMatches_eq_rdrop, trimMatches_eq_rdrop]
  have hd : (List.rdropWhile isTrimChar (s.dropWhile isTrimChar)).dropWhile isTrimChar =
      List.rdropWhile isTrimChar (s.dropWhile isTrimChar) := by
    obtain ⟨u, hu⟩ := List.rdropWhile_prefix (p := isTrimChar) (l := s.dropWhile isTrimChar)
    cases ht : List.rdropWhile isTrimChar (s.dropWhile isTrimChar) with
    | nil => rfl
    | cons x t' =>
      rw [ht] at hu
      have hx : isTrimChar x = false :=
        dropWhile_cons_head_not (s := s) (by rw [← hu]; rfl)
      rw [List.dropWhile_cons, hx]
      simp
  rw [hd, List.rdropWhile_idempotent]

theorem trimMatches_length_le (s : List Char) : (trimMatches s).length ≤ s.length := by
  unfold trimMatches
  simp only [List.length_reverse]
  calc ((s.dropWhile isTrimChar).reverse.dropWhile isTrimChar).length
      ≤ (s.dropWhile isTrimChar).reverse.length :=
        (List.dropWhile_suffix isTrimChar).sublist.length_le
    _ = (s.dropWhile isTrimChar).length := by simp
    _ ≤ s.length := (List.dropWhile_suffix isTrimChar).sublist.length_le

theorem fromStrDispatch_congr (r r' : List Char → PResult Expression) (t : List Char)
    (mi : Nat) (token : Char) (hlt : mi < t.length)
    (h : ∀ u, u.length < t.length → r u = r' u) :
    fromStrDispatch r t mi token = fromStrDispatch r' t mi token := by
  unfold fromStrDispatch
  by_cases hb1 : ((token == '-' && mi == 0) = true)
  · simp only [if_pos hb1]
    cases hs : sliceFrom (mi + 1) t with
    | none => rfl
    | some rest =>
      exact congrArg (mapParse Expression.unaryNegation)
        (h rest (sliceFrom_length (Nat.succ_pos mi) hs))
  · simp only [if_neg hb1]
    by_cases hb2 : (isOperatorChar token = true)
    · simp only [if_pos hb2]
      cases hop : charToBinaryOperator token with
      | none => rfl
      | some op =>
        cases hs1 : sliceTo mi t with
        | none => rfl
        | some leftStr =>
          have hbr : binaryRight r t mi op = binaryRight r' t mi op := by
            funext left
            unfold binaryRight
            cases hs2 : sliceFrom (mi + 1) t with
            | none => rfl
            | some rightStr =>
              exact congrArg (mapParse fun right => .binaryOperation op left right)
                (h rightStr (sliceFrom_length (Nat.succ_pos mi) hs2))
          show contParse (binaryRight r t mi op) (r leftStr) =
            contParse (binaryRight r' t mi op) (r' leftStr)
          rw [h leftStr (sliceTo_length hlt hs1), hbr]
    · simp only [if_neg hb2]
      by_cases hb3 : ((token == '(') = true)
      · simp only [if_pos hb3]
        cases hs : sliceBytes 1 (utf8Len t - 1) t with
        | none => rfl
        | some mid =>
          exact congrArg (mapParse Expression.parenthesis)
            (h mid (sliceBytes_length (by norm_num) hs))
      · simp only [if_neg hb3]

theorem fromStrBody_congr (r r' : List Char → PResult Expression) (s s' : List Char)
    (ht : trimMatches s = trimMatches s')
    (h : ∀ u, u.length < (trimMatches s).length → r u = r' u) :
    fromStrBody r s = fromStrBody r' s' := by
  simp only [fromStrBody]
  rw [← ht]
  cases hg : (trimMatches s).get?
      (find_minimum_priority_token (trimMatches s) (locate_parenthesis (trimMatches s))) with
  | none => rfl
  | some token =>
    have hlt := (List.get?_eq_some.mp hg).1
    exact fromStrDispatch_congr r r' (trimMatches s) _ token hlt h

theorem fromStrFuel_congr :
    ∀ n f g s s', (trimMatches s).length ≤ n → s.length < f → s'.length < g →
      trimMatches s = trimMatches s' → fromStrFuel f s = fromStrFuel g s' := by
  intro n
  induction n with
  | zero =>
    intro f g s s' hn hf hg ht
    obtain ⟨f', rfl⟩ : ∃ f', f = f' + 1 := ⟨f - 1, by omega⟩
    obtain ⟨g', rfl⟩ : ∃ g', g = g' + 1 := ⟨g - 1, by omega⟩
    show fromStrBody (fromStrFuel f') s = fromStrBody (fromStrFuel g') s'
    exact fromStrBody_congr _ _ s s' ht (fun u hu => absurd hu (by omega))
  | succ m ih =>
    intro f g s s' hn hf hg ht
    obtain ⟨f', rfl⟩ : ∃ f', f = f' + 1 := ⟨f - 1, by omega⟩
    obtain ⟨g', rfl⟩ : ∃ g', g = g' + 1 := ⟨g - 1, by omega⟩
    show fromStrBody (fromStrFuel f') s = fromStrBody (fromStrFuel g') s'
    refine fromStrBody_congr _ _ s s' ht (fun u hu => ?_)
    have ha := trimMatches_length_le u
    have hb := trimMatches_length_le s
    have hc := trimMatches_length_le s'
    have hu' : u.length < (trimMatches s').length := by rw [← ht]; exact hu
    exact ih f' g' u u (by omega) (by omega) (by omega) rfl

theorem fromStrFuel_eq_from_str {f : Nat} {s : List Char} (h : s.length < f) :
    fromStrFuel f s = from_str s :=
  fromStrFuel_congr (trimMatches s).length f (s.length + 1) s s le_rfl h (by omega) rfl

/-- C7 amended: whitespace is trimmed at entry to every parse call, not
only the very first one; the recursive calls do receive the raw split
substrings, but each recursive call re-trims at entry, so parsing any
string is the same as parsing its trimmed form. -/
theorem c7_amended_trim_every_call (s : List Char) :
    from_str s = from_str (trimMatches s) :=
  fromStrFuel_congr (trimMatches s).length (s.length + 1) ((trimMatches s).length + 1)
    s (trimMatches s) le_rfl (by omega) (by omega) (trimMatches_idem s).symm

/-- Characters the minimum-priority scanner passes over without touching
its running best: not operators, not parentheses, not the whitespace it
skips. -/
def inertChar (c : Char) : Bool :=
  !(c == '(' || c == ')' || c == '^' || c == '*' || c == '/' || c == '+' ||
    c == '-' || c == ' ' || c == '\n' || c == '\r')

/-- The characters a finite f64 literal may contain besides a sign. -/
def literalChar (c : Char) : Prop :=
  isDigitChar c = true ∨ c = '.' ∨ c = 'e' ∨ c = 'E'

theorem inertChar_not {c : Char} (x : Char) (h : inertChar c = true)
    (hx : inertChar x = false) : (c == x) = false := by
  cases he : c == x
  · rfl
  · rw [eq_of_beq he] at h
    rw [h] at hx
    cases hx

theorem digit_beq_false {c : Char} (x : Char) (h : isDigitChar c = true)
    (hx : isDigitChar x = false) : (c == x) = false := by
  cases he : c == x
  · rfl
  · rw [eq_of_beq he] at h
    rw [h] at hx
    cases hx

theorem inertChar_of_digit {c : Char} (h : isDigitChar c = true) : inertChar c = true := by
  unfold inertChar
  rw [digit_beq_false '(' h (by decide), digit_beq_false ')' h (by decide),
    digit_beq_false '^' h (by decide), digit_beq_false '*' h (by decide),
    digit_beq_false '/' h (by decide), digit_beq_false '+' h (by decide),
    digit_beq_false '-' h (by decide), digit_beq_false ' ' h (by decide),
    digit_beq_false '\n' h (by decide), digit_beq_false '\r' h (by decide)]
  rfl

theorem inertChar_of_literal {c : Char} (h : literalChar c) : inertChar c = true := by
  rcases h with h | h | h | h
  · exact inertChar_of_digit h
  all_goals subst h
  all_goals decide

theorem isTrimChar_false_of_digit {c : Char} (h : isDigitChar c = true) :
    isTrimChar c = false := by
  unfold isTrimChar
  rw [digit_beq_false ' ' h (by decide), digit_beq_false '\n' h (by decide),
    digit_beq_false '\r' h (by decide), digit_beq_false '\t' h (by decide)]
  rfl

theorem isTrimChar_false_of_literal {c : Char} (h : literalChar c) : isTrimChar c = false := by
  rcases h with h | h | h | h
  · exact isTrimChar_false_of_digit h
  all_goals subst h
  all_goals decide

theorem trimMatches_eq_self {s : List Char} (h : ∀ c ∈ s, isTrimChar c = false) :
    trimMatches s = s := by
  unfold trimMatches
  have h1 : s.dropWhile isTrimChar = s := by
    rw [List.dropWhile_eq_self_iff]
    intro hl
    simpa using h (s.get ⟨0, hl⟩) (s.get_mem 0 hl)
  rw [h1]
  have h2 : s.reverse.dropWhile isTrimChar = s.reverse := by
    rw [List.dropWhile_eq_self_iff]
    intro hl
    have hm : s.reverse.get ⟨0, hl⟩ ∈ s := by
      rw [← List.mem_reverse]
      exact s.reverse.get_mem 0 hl
    simpa using h _ hm
  rw [h2, List.reverse_reverse]

theorem locateParenthesisAux_no_paren (l : List Char) :
    ∀ (k : Nat) (d : Int) (cur : Nat), (∀ c ∈ l, c ≠ '(' ∧ c ≠ ')') →
      locateParenthesisAux d cur (charIndicesFrom k l) = [] := by
  induction l with
  | nil => intros; rfl
  | cons c cs ih =>
    intro k d cur h
    have hc := h c (List.mem_cons_self c cs)
    have e1 : ¬ ((c == '(') = true) := by simp [hc.1]
    have e2 : ¬ ((c == ')') = true) := by simp [hc.2]
    simp only [charIndicesFrom, locateParenthesisAux, if_neg e1, if_neg e2]
    exact ih _ d cur (fun x hx => h x (List.mem_cons_of_mem c hx))

theorem locate_parenthesis_eq_nil {s : List Char} (h : ∀ c ∈ s, c ≠ '(' ∧ c ≠ ')') :
    locate_parenthesis s = [] :=
  locateParenthesisAux_no_paren s 0 0 USIZE_MAX h

theorem findMinAux_inert (l : List Char) :
    ∀ (k : Nat) (seen : List Char) (best : Nat × Nat), best.2 < 255 →
      (∀ c ∈ l, inertChar c = true) →
      findMinAux [] best seen (charIndicesFrom k l) = best := by
  induction l with
  | nil => intros; rfl
  | cons c cs ih =>
    intro k seen best hb hl
    have hc := hl c (List.mem_cons_self c cs)
    have e1 := inertChar_not '(' hc (by decide)
    have e2 := inertChar_not ')' hc (by decide)
    have e3 := inertChar_not '^' hc (by decide)
    have e4 := inertChar_not '*' hc (by decide)
    have e5 := inertChar_not '/' hc (by decide)
    have e6 := inertChar_not '+' hc (by decide)
    have e7 := inertChar_not '-' hc (by decide)
    have e8 := inertChar_not ' ' hc (by decide)
    have e9 := inertChar_not '\n' hc (by decide)
    have e10 := inertChar_not '\r' hc (by decide)
    have hp : ¬ (255 ≤ best.2) := by omega
    simp only [charIndicesFrom, findMinAux, insideSpan, e1, e2, e3, e4, e5, e6, e7, e8, e9,
      e10, Bool.false_and, Bool.false_or, Bool.or_false, Bool.or_self, Bool.false_eq_true,
      if_false, if_neg hp]
    exact ih _ (c :: seen) best hb (fun x hx => hl x (List.mem_cons_of_mem c hx))

theorem findMinAux_step_inert {c : Char} (hc : inertChar c = true) (i : Nat)
    (seen : List Char) (best : Nat × Nat) (hb : 255 ≤ best.2) (rest : List (Nat × Char)) :
    findMinAux [] best seen ((i, c) :: rest) = findMinAux [] (i, 6) (c :: seen) rest := by
  have e1 := inertChar_not '(' hc (by decide)
  have e2 := inertChar_not ')' hc (by decide)
  have e3 := inertChar_not '^' hc (by decide)
  have e4 := inertChar_not '*' hc (by decide)
  have e5 := inertChar_not '/' hc (by decide)
  have e6 := inertChar_not '+' hc (by decide)
  have e7 := inertChar_not '-' hc (by decide)
  have e8 := inertChar_not ' ' hc (by decide)
  have e9 := inertChar_not '\n' hc (by decide)
  have e10 := inertChar_not '\r' hc (by decide)
  simp only [findMinAux, insideSpan, e1, e2, e3, e4, e5, e6, e7, e8, e9, e10,
    Bool.false_and, Bool.false_or, Bool.or_false, Bool.or_self, Bool.false_eq_true,
    if_false, if_pos hb]

theorem find_min_head_literal {c : Char} {cs : List Char}
    (hc : inertChar c = true) (hcs : ∀ x ∈ cs, inertChar x = true) :
    find_minimum_priority_token (c :: cs) [] = 0 := by
  unfold find_minimum_priority_token charIndices
  rw [show charIndicesFrom 0 (c :: cs) = (0, c) :: charIndicesFrom (0 + c.utf8Size) cs from rfl]
  rw [findMinAux_step_inert hc 0 [] (USIZE_MAX, 255) (by norm_num) _]
  rw [findMinAux_inert cs _ [c] (0, 6) (by omega) hcs]

theorem find_min_head_neg {cs : List Char} (hcs : ∀ x ∈ cs, inertChar x = true) :
    find_minimum_priority_token ('-' :: cs) [] = 0 := by
  unfold find_minimum_priority_token charIndices
  rw [show charIndicesFrom 0 ('-' :: cs) =
    (0, '-') :: charIndicesFrom (0 + Char.utf8Size '-') cs from rfl]
  have step : findMinAux [] (USIZE_MAX, 255) []
      ((0, '-') :: charIndicesFrom (0 + Char.utf8Size '-') cs) =
      findMinAux [] (0, 4) ['-'] (charIndicesFrom (0 + Char.utf8Size '-') cs) := by
    simp [findMinAux, insideSpan, USIZE_MAX]
  rw [step, findMinAux_inert cs _ ['-'] (0, 4) (by omega) hcs]


theorem splitAtExp_cases (s : List Char) :
    ((splitAtExp s).2 = none ∧ s = (splitAtExp s).1) ∨
    (∃ es ec, (ec = 'e' ∨ ec = 'E') ∧ (splitAtExp s).2 = some es ∧
      s = (splitAtExp s).1 ++ ec :: es) := by
  induction s with
  | nil => left; exact ⟨rfl, rfl⟩
  | cons c cs ih =>
    by_cases hc : (c == 'e' || c == 'E') = true
    · have hs : splitAtExp (c :: cs) = ([], some cs) := by
        show (if (c == 'e' || c == 'E') = true then (([] : List Char), some cs)
          else (c :: (splitAtExp cs).1, (splitAtExp cs).2)) = ([], some cs)
        rw [if_pos hc]
      right
      refine ⟨cs, c, ?_, ?_, ?_⟩
      · rcases Bool.or_eq_true_iff.mp hc with h | h
        · exact Or.inl (eq_of_beq h)
        · exact Or.inr (eq_of_beq h)
      · rw [hs]
      · rw [hs]
        rfl
    · have hs : splitAtExp (c :: cs) = (c :: (splitAtExp cs).1, (splitAtExp cs).2) := by
        show (if (c == 'e' || c == 'E') = true then (([] : List Char), some cs)
          else (c :: (splitAtExp cs).1, (splitAtExp cs).2)) =
          (c :: (splitAtExp cs).1, (splitAtExp cs).2)
        rw [if_neg hc]
      rcases ih with ⟨h1, h2⟩ | ⟨es, ec, hec, h1, h2⟩
      · left
        rw [hs]
        exact ⟨h1, congrArg (c :: ·) h2⟩
      · right
        refine ⟨es, ec, hec, ?_, ?_⟩
        · rw [hs]
          exact h1
        · rw [hs]
          simpa using congrArg (c :: ·) h2

theorem parseMantissa_chars {m : List Char} {q : ℚ} (h : parseMantissa m = some q) :
    ∀ c ∈ m, isDigitChar c = true ∨ c = '.' := by
  intro c hc
  by_cases hcd : isDigitChar c = true
  · exact Or.inl hcd
  right
  unfold parseMantissa at h
  rw [← List.takeWhile_append_dropWhile (p := isDigitChar) (l := m)] at hc
  rcases List.mem_append.mp hc with h1 | h2
  · exact absurd (List.mem_takeWhile_imp h1) hcd
  by_cases he : (m.dropWhile isDigitChar).isEmpty = true
  · rw [List.isEmpty_iff] at he
    rw [he] at h2
    cases h2
  rw [if_neg he] at h
  by_cases hh : (m.dropWhile isDigitChar).head? = some '.'
  · rw [if_pos hh] at h
    by_cases hg : (((m.dropWhile isDigitChar).drop 1).all isDigitChar &&
        !((m.takeWhile isDigitChar).isEmpty && ((m.dropWhile isDigitChar).drop 1).isEmpty)) = true
    · cases hdw : m.dropWhile isDigitChar with
      | nil => rw [hdw] at h2; cases h2
      | cons x rest =>
        have hx : x = '.' := by
          rw [hdw] at hh
          simpa using hh
        subst hx
        rcases List.mem_cons.mp (by rw [← hdw]; exact h2) with rfl | h3
        · rfl
        · exfalso
          apply hcd
          rw [hdw] at hg
          simp only [List.drop_one, List.tail_cons, Bool.and_eq_true] at hg
          exact List.all_eq_true.mp hg.1 c h3
    · rw [if_neg hg] at h
      cases h
  · rw [if_neg hh] at h
    cases h

theorem parseExpPart_chars {es : List Char} {k : Int} (h : parseExpPart es = some k) :
    ∀ c ∈ es, isDigitChar c = true ∨ c = '+' ∨ c = '-' := by
  intro c hc
  by_cases hcd : isDigitChar c = true
  · exact Or.inl hcd
  right
  unfold parseExpPart at h
  by_cases h1 : es.head? = some '+'
  · rw [if_pos h1] at h
    cases es with
    | nil => cases hc
    | cons x rest =>
      have hx : x = '+' := by simpa using h1
      subst hx
      rcases List.mem_cons.mp hc with rfl | h3
      · exact Or.inl rfl
      · exfalso
        apply hcd
        by_cases hg : (!(('+' :: rest).drop 1).isEmpty &&
            (('+' :: rest).drop 1).all isDigitChar) = true
        · simp only [List.drop_one, List.tail_cons, Bool.and_eq_true] at hg
          exact List.all_eq_true.mp hg.2 c h3
        · rw [if_neg hg] at h
          cases h
  · rw [if_neg h1] at h
    by_cases h2 : es.head? = some '-'
    · rw [if_pos h2] at h
      cases es with
      | nil => cases hc
      | cons x rest =>
        have hx : x = '-' := by simpa using h2
        subst hx
        rcases List.mem_cons.mp hc with rfl | h3
        · exact Or.inr rfl
        · exfalso
          apply hcd
          by_cases hg : (!(('-' :: rest).drop 1).isEmpty &&
              (('-' :: rest).drop 1).all isDigitChar) = true
          · simp only [List.drop_one, List.tail_cons, Bool.and_eq_true] at hg
            exact List.all_eq_true.mp hg.2 c h3
          · rw [if_neg hg] at h
            cases h
    · rw [if_neg h2] at h
      by_cases hg : (!es.isEmpty && es.all isDigitChar) = true
      · exfalso
        apply hcd
        simp only [Bool.and_eq_true] at hg
        exact List.all_eq_true.mp hg.2 c hc
      · rw [if_neg hg] at h
        cases h

theorem parseF64Unsigned_chars {t : List Char} {q : ℚ} (h : parseF64Unsigned t = some q)
    (hsign : ∀ c ∈ t, c ≠ '+' ∧ c ≠ '-') : ∀ c ∈ t, literalChar c := by
  intro c hc
  have hct : c ∈ t := hc
  simp only [parseF64Unsigned] at h
  cases hm : parseMantissa (splitAtExp t).1 with
  | none => rw [hm] at h; cases h
  | some qm =>
    rw [hm] at h
    rcases splitAtExp_cases t with ⟨h1, h2⟩ | ⟨es, ec, hec, h1, h2⟩
    · rw [h2] at hc
      rcases parseMantissa_chars hm c hc with hd | hd
      · exact Or.inl hd
      · exact Or.inr (Or.inl hd)
    · rw [h2] at hc
      rcases List.mem_append.mp hc with hcm | hce
      · rcases parseMantissa_chars hm c hcm with hd | hd
        · exact Or.inl hd
        · exact Or.inr (Or.inl hd)
      · rcases List.mem_cons.mp hce with rfl | hces
        · rcases hec with rfl | rfl
          · exact Or.inr (Or.inr (Or.inl rfl))
          · exact Or.inr (Or.inr (Or.inr rfl))
        · rw [h1] at h
          cases hk : parseExpPart es with
          | none =>
            exfalso
            have h' : Option.map (fun k => qm * intPow 10 k) (parseExpPart es) = some q := h
            rw [hk] at h'
            cases h'
          | some k =>
            rcases parseExpPart_chars hk c hces with hd | hd | hd
            · exact Or.inl hd
            · exact absurd hd (hsign c hct).1
            · exact absurd hd (hsign c hct).2

theorem fromStr_unsigned {t : List Char} {q : ℚ}
    (hp : parseF64Unsigned t = some q)
    (hsign : ∀ c ∈ t, c ≠ '+' ∧ c ≠ '-') :
    from_str t = .ok (.number q) := by
  have hchars : ∀ c ∈ t, literalChar c := parseF64Unsigned_chars hp hsign
  cases t with
  | nil =>
    exfalso
    have hnone : parseF64Unsigned ([] : List Char) = none := by decide
    rw [hnone] at hp
    cases hp
  | cons c cs =>
    have hc : literalChar c := hchars c (List.mem_cons_self c cs)
    have hinert : inertChar c = true := inertChar_of_literal hc
    have hcs : ∀ x ∈ cs, inertChar x = true := fun x hx =>
      inertChar_of_literal (hchars x (List.mem_cons_of_mem c hx))
    have htrim : trimMatches (c :: cs) = c :: cs :=
      trimMatches_eq_self (fun x hx => isTrimChar_false_of_literal (hchars x hx))
    have hloc : locate_parenthesis (c :: cs) = [] :=
      locate_parenthesis_eq_nil (by
        intro x hx
        have hi := inertChar_of_literal (hchars x hx)
        exact ⟨ne_of_beq_false (inertChar_not '(' hi (by decide)),
          ne_of_beq_false (inertChar_not ')' hi (by decide))⟩)
    have hmin : find_minimum_priority_token (c :: cs) [] = 0 := find_min_head_literal hinert hcs
    have hne_plus : c ≠ '+' := ne_of_beq_false (inertChar_not '+' hinert (by decide))
    have hne_minus : c ≠ '-' := ne_of_beq_false (inertChar_not '-' hinert (by decide))
    have hp4 : parseF64 (c :: cs) = some q := by
      unfold parseF64
      rw [if_neg (by simp [hne_plus]), if_neg (by simp [hne_minus])]
      exact hp
    show fromStrBody (fromStrFuel (c :: cs).length) (c :: cs) = _
    simp only [fromStrBody, htrim, hloc, hmin, List.get?_cons_zero]
    show fromStrDispatch (fromStrFuel (c :: cs).length) (c :: cs) 0 c = _
    have hnc1 : ¬ ((c == '-' && (0 : Nat) == 0) = true) := by
      rw [inertChar_not '-' hinert (by decide)]
      simp
    have hnc2 : ¬ (isOperatorChar c = true) := by
      unfold isOperatorChar
      rw [inertChar_not '+' hinert (by decide), inertChar_not '-' hinert (by decide),
        inertChar_not '*' hinert (by decide), inertChar_not '/' hinert (by decide),
        inertChar_not '^' hinert (by decide)]
      simp
    have hnc3 : ¬ ((c == '(') = true) := by
      rw [inertChar_not '(' hinert (by decide)]
      simp
    simp only [fromStrDispatch, if_neg hnc1, if_neg hnc2, if_neg hnc3, hp4]

/-- C5 amended: for every finite literal of the host float parser in
which '+' does not occur and '-' occurs at most as the very first
character (such as "42", "-3.5" and "1e3"), parsing and evaluating
yields exactly the value the host parser assigns.  (The counterexample
records that literals with a signed exponent fall outside this: the
scanner splits them at the sign.) -/
theorem c5_amended_literal_roundtrip (s : List Char) (q : ℚ)
    (hp : parseF64 s = some q)
    (hplus : s.head? ≠ some '+')
    (hsign : ∀ c ∈ s.drop 1, c ≠ '+' ∧ c ≠ '-') :
    parse_and_evaluate s = .ok q := by
  cases s with
  | nil =>
    exfalso
    have hnone : parseF64 ([] : List Char) = none := by decide
    rw [hnone] at hp
    cases hp
  | cons c cs =>
    simp only [List.drop_one, List.tail_cons] at hsign
    by_cases hneg : c = '-'
    · subst hneg
      have hu : ∃ q', parseF64Unsigned cs = some q' ∧ q = -q' := by
        unfold parseF64 at hp
        rw [if_neg (by simp), if_pos (by simp)] at hp
        simp only [List.drop_one, List.tail_cons] at hp
        cases hu2 : parseF64Unsigned cs with
        | none =>
          rw [hu2] at hp
          cases hp
        | some q' =>
          rw [hu2] at hp
          refine ⟨q', rfl, ?_⟩
          simp only [Option.map_some'] at hp
          injection hp with hq
          exact hq.symm
      obtain ⟨q', hq', rfl⟩ := hu
      have hchars : ∀ x ∈ cs, literalChar x := parseF64Unsigned_chars hq' hsign
      have hcs : ∀ x ∈ cs, inertChar x = true := fun x hx => inertChar_of_literal (hchars x hx)
      have htrim : trimMatches ('-' :: cs) = '-' :: cs :=
        trimMatches_eq_self (by
          intro x hx
          rcases List.mem_cons.mp hx with rfl | hx2
          · decide
          · exact isTrimChar_false_of_literal (hchars x hx2))
      have hloc : locate_parenthesis ('-' :: cs) = [] :=
        locate_parenthesis_eq_nil (by
          intro x hx
          rcases List.mem_cons.mp hx with rfl | hx2
          · exact ⟨by decide, by decide⟩
          · have hi := inertChar_of_literal (hchars x hx2)
            exact ⟨ne_of_beq_false (inertChar_not '(' hi (by decide)),
              ne_of_beq_false (inertChar_not ')' hi (by decide))⟩)
      have hmin : find_minimum_priority_token ('-' :: cs) [] = 0 := find_min_head_neg hcs
      have hslice : sliceFrom 1 ('-' :: cs) = some cs := by
        simp [sliceFrom, byteSplitAux, show Char.utf8Size '-' = 1 from by decide]
      have hrec : from_str cs = .ok (.number q') := fromStr_unsigned hq' hsign
      have hfs : from_str ('-' :: cs) = .ok (.unaryNegation (.number q')) := by
        show fromStrBody (fromStrFuel ('-' :: cs).length) ('-' :: cs) = _
        simp only [fromStrBody, htrim, hloc, hmin, List.get?_cons_zero]
        show fromStrDispatch (fromStrFuel ('-' :: cs).length) ('-' :: cs) 0 '-' = _
        have hcnd : (('-' == '-') && ((0 : Nat) == 0)) = true := by decide
        simp only [fromStrDispatch, if_pos hcnd, hslice]
        show mapParse Expression.unaryNegation (fromStrFuel ('-' :: cs).length cs) = _
        rw [show ('-' :: cs).length = cs.length + 1 from rfl]
        show mapParse Expression.unaryNegation (from_str cs) = _
        rw [hrec]
        rfl
      unfold parse_and_evaluate
      rw [hfs]
      rfl
    · have hne_plus : c ≠ '+' := by
        intro he
        subst he
        exact hplus rfl
      have hp' : parseF64Unsigned (c :: cs) = some q := by
        unfold parseF64 at hp
        rw [if_neg (by simp [hne_plus]), if_neg (by simp [hneg])] at hp
        exact hp
      have hfs := fromStr_unsigned hp' (by
        intro x hx
        rcases List.mem_cons.mp hx with rfl | hx2
        · exact ⟨hne_plus, hneg⟩
        · exact hsign x hx2)
      unfold parse_and_evaluate
      rw [hfs]
      rfl

/-- Witness for C5 amended at the literal "-5": the host parser gives
-5 and so does the pipeline. -/
theorem c5_amended_witness :
    parseF64 [ '-', '5' ] = some (-5) ∧
      ([ '-', '5' ].head? ≠ some '+') ∧
      (∀ c ∈ [ '-', '5' ].drop 1, c ≠ '+' ∧ c ≠ '-') ∧
      parse_and_evaluate [ '-', '5' ] = .ok (-5) :=
  ⟨by decide, by decide, by decide,
    c5_amended_literal_roundtrip [ '-', '5' ] (-5) (by decide) (by decide) (by decide)⟩
